import Mathlib

/-!
Verification of the accumulator / WAL / chain-proof core
(`src/accumulator/rsa_accumulator.py`, `src/storage/wal_accumulator.py`,
`src/accumulator/incremental_proof.py`).

Python strings are embedded as `List Char`; Python `bytes` values are
embedded by the only two attributes the core ever reads from them (their
SHA-256 digest as a big integer, and the first 8 hex characters used as a
short identifier).  Python arbitrary-precision integers are `Nat` where the
source only ever holds non-negative values, and `Int` for the fields of
`AccumulatorProof`, which an adversarial caller may populate with any
integers.  Python exceptions are `Except String`.
-/

namespace SCM

/-! ### Python string primitives (on `List Char`) -/

/-- `str.strip()`: drop whitespace from both ends. -/
def pyStrip (s : List Char) : List Char :=
  ((s.dropWhile Char.isWhitespace).reverse.dropWhile Char.isWhitespace).reverse

/-- `str.split(sep)` for a single-character separator: `"".split(c) = [""]`,
`"a:b".split(':') = ["a","b"]`, `":".split(':') = ["",""]`. -/
def pySplit (sep : Char) : List Char → List (List Char)
  | [] => [[]]
  | c :: rest =>
    if c = sep then [] :: pySplit sep rest
    else
      match pySplit sep rest with
      | [] => [[c]]
      | h :: t => (c :: h) :: t

/-- `line.startswith('#')`. -/
def startsHash : List Char → Bool
  | [] => false
  | c :: _ => c = '#'

/-- Numeric value of a decimal digit character. -/
def digitVal (c : Char) : Nat := c.toNat - 48

/-- Decimal reading of a digit string (the value `int(s)` computes once the
string is known to be all digits). -/
def charsToNat (s : List Char) : Nat := s.foldl (fun a c => a * 10 + digitVal c) 0

/-- Python `int(s)` on the strings the WAL can contain: succeeds exactly on
non-empty all-digit strings and raises `ValueError` otherwise.  (Python also
tolerates signs and surrounding whitespace; no value written or tested here
uses them.) -/
def pyInt (s : List Char) : Except String Nat :=
  if s.isEmpty then .error "ValueError"
  else if s.all Char.isDigit then .ok (charsToNat s)
  else .error "ValueError"

/-- The decimal digit character for `d < 10`. -/
def digitChar (d : Nat) : Char := Char.ofNat (48 + d)

/-- Little-endian digit characters of `n`, with structural fuel (a number has
at most as many digits as its own value, so fuel `n` always suffices). -/
def natCharsAux : Nat → Nat → List Char
  | 0, _ => []
  | _, 0 => []
  | f + 1, n => digitChar (n % 10) :: natCharsAux f (n / 10)

/-- Decimal rendering of `n`, as Python's `f"{n}"` produces it. -/
def natToChars (n : Nat) : List Char :=
  if n = 0 then ['0'] else (natCharsAux n n).reverse

/-- Propositional equality of `Except` results is decidable (needed to state
and check concrete outcomes). -/
instance {e a : Type} [DecidableEq e] [DecidableEq a] : DecidableEq (Except e a) := fun x y =>
  match x, y with
  | Except.ok u, Except.ok v =>
    if h : u = v then isTrue (by rw [h])
    else isFalse (by intro hc; cases hc; exact h rfl)
  | Except.error u, Except.error v =>
    if h : u = v then isTrue (by rw [h])
    else isFalse (by intro hc; cases hc; exact h rfl)
  | Except.ok _, Except.error _ => isFalse (by intro hc; cases hc)
  | Except.error _, Except.ok _ => isFalse (by intro hc; cases hc)

/-! ### Data model -/

/-- A Python `bytes` value, embedded by the only two attributes the core
reads from it: `int.from_bytes(sha256(b).digest())` (used by
`_hash_to_prime`) and `b.hex()[:8]` (the short scar identifier). -/
structure PyBytes where
  digest : Nat
  hex8 : List Char
deriving DecidableEq

/-- `AccumulatorProof` (frozen dataclass); the fields are Python ints, which
an adversarial verifier input may populate with arbitrary integers. -/
structure AccumulatorProof where
  witness : Int
  accumulator : Int
  element_hash : Int
  sequence : Int
deriving DecidableEq

/-- `AccumulatorWAL`: the log file as its list of newline-terminated lines,
plus the in-memory tail cache `_cached_seq` / `_cached_value`. -/
structure AccumulatorWAL where
  lines : List (List Char)
  cached_seq : Nat
  cached_value : Nat
deriving DecidableEq

/-- `RSAAccumulator`: modulus, totient, fixed generator, current value,
WAL handle, and transition counter. -/
structure RSAAccumulator where
  N : Nat
  phi : Nat
  g : Nat
  value : Nat
  wal : AccumulatorWAL
  current_sequence : Nat
deriving DecidableEq

/-- `IncrementalChainProof`: accumulator, genesis hash, retained proofs. -/
structure IncrementalChainProof where
  accumulator : RSAAccumulator
  genesis : PyBytes
  proofs : List AccumulatorProof
deriving DecidableEq

/-! ### Primality and hash-to-prime (`RSAAccumulator._hash_to_prime`) -/

/-- Deterministic primality check, modelling `Crypto.Util.number.isPrime`
(exact rather than probabilistic). -/
def isPrime (n : Nat) : Bool :=
  decide (2 ≤ n) && (List.range n).all (fun d => decide (d < 2) || n % d != 0)

/-- The probing loop of `_hash_to_prime` (`while not isPrime(candidate):
candidate += 1`), with structural fuel.  `nextPrime` supplies fuel `n + 3`,
which always reaches the least prime at or above `n` (Bertrand's postulate;
see `nextPrime_least`), so the fuel never runs out and the definition is
extensionally the unbounded source loop. -/
def nextPrimeAux : Nat → Nat → Nat
  | 0, c => c
  | f + 1, c => if isPrime c then c else nextPrimeAux f (c + 1)

def nextPrime (n : Nat) : Nat := nextPrimeAux (n + 3) n

/-- `_hash_to_prime(data)`: SHA-256 the bytes, read the digest as a big
integer (the `digest` attribute of the embedded bytes value), then probe
upward to the next prime. -/
def hash_to_prime (data : PyBytes) : Nat := nextPrime data.digest

/-! ### Write-ahead log operations (`src/storage/wal_accumulator.py`) -/

/-- The two header lines `_ensure_file` writes into a fresh log. -/
def headerLine1 : List Char := "# ACCUMULATOR WAL".toList

def headerLine2 : List Char := "# seq:operation:value:timestamp:scar_id".toList

/-- `AccumulatorWAL.__init__` on a path that does not exist yet:
`_ensure_file` writes the two header lines; both caches start at 0. -/
def freshWAL : AccumulatorWAL :=
  { lines := [headerLine1, headerLine2], cached_seq := 0, cached_value := 0 }

/-- The record text `f"{seq}:{operation}:{value}:{timestamp}:{scar_id}"`
(without the terminating newline, which the line-list model absorbs). -/
def mkEntry (seq : Nat) (op : List Char) (value : Nat) (ts scar : List Char) :
    List Char :=
  natToChars seq ++ ':' :: (op ++ ':' :: (natToChars value ++ ':' :: (ts ++ ':' :: scar)))

/-- `append(operation, value, scar_id)`.  The timestamp
(`datetime.utcnow().isoformat()`) is an environment input and is passed in.
`sync_ok` models whether the durable write (write/flush/fsync) succeeds; on
failure the I/O error propagates as an exception.  Note the source increments
`_cached_seq` before the write, so a failed append still leaves the sequence
cache advanced, while `_cached_value` is only set after a successful sync. -/
def AccumulatorWAL.append (w : AccumulatorWAL) (op : List Char) (value : Nat)
    (scar ts : List Char) (sync_ok : Bool) : AccumulatorWAL × Except String Bool :=
  let seq' := w.cached_seq + 1
  let entry := mkEntry seq' op value ts scar
  if sync_ok then
    ({ lines := w.lines ++ [entry], cached_seq := seq', cached_value := value },
      .ok true)
  else
    ({ w with cached_seq := seq' }, .error "IOError")

/-- The data lines of the log: `[l for l in lines if l and not
l.startswith('#')]`. -/
def dataLines (lines : List (List Char)) : List (List Char) :=
  lines.filter (fun l => !l.isEmpty && !startsHash l)

/-- The parse `recover` performs on the last data line:
`last = line.strip().split(':')`, then `int(last[0])`, `int(last[2])`
(either may raise `ValueError`; indexing past the end raises `IndexError`),
and `last[4] if len(last) > 4 else None`. -/
def parseRecord (line : List Char) : Except String (Nat × Nat × Option (List Char)) := do
  let parts := pySplit ':' (pyStrip line)
  let f0 ← match parts.get? 0 with
    | some s => Except.ok s
    | none => Except.error "IndexError"
  let seq ← pyInt f0
  let f2 ← match parts.get? 2 with
    | some s => Except.ok s
    | none => Except.error "IndexError"
  let value ← pyInt f2
  Except.ok (seq, value, if 4 < parts.length then parts.get? 4 else none)

/-- `recover()`: read the whole file, skip comment lines, and parse the last
data line; `(0, 0, None)` when there are no data lines. -/
def AccumulatorWAL.recover (w : AccumulatorWAL) :
    Except String (Nat × Nat × Option (List Char)) :=
  match (dataLines w.lines).getLast? with
  | none => .ok (0, 0, none)
  | some last => parseRecord last

/-- `initialize_cache()`: run `recover` once and seed both caches (errors from
`recover` propagate). -/
def AccumulatorWAL.initialize_cache (w : AccumulatorWAL) : Except String AccumulatorWAL := do
  let (seq, value, _) ← w.recover
  Except.ok { w with cached_seq := seq, cached_value := value }

/-! ### Accumulator operations (`src/accumulator/rsa_accumulator.py`) -/

/-- `RSAAccumulator.__init__`: `N` and `phi` come from `RSA.generate`
(external randomness, received as parameters here; `N` is a product of two
large primes, so `N ≥ 2`); the generator is the fixed 65537, the starting
value equals the generator, and the WAL is fresh. -/
def RSAAccumulator.mk_fresh (N phi : Nat) : RSAAccumulator :=
  { N := N, phi := phi, g := 65537, value := 65537, wal := freshWAL,
    current_sequence := 0 }

/-- `RSAAccumulator.initialize()`: seed the WAL cache from `recover`, then
`self.current_sequence = self.wal.current_seq` and
`self.value = self.wal.current_value or self.g` (Python `or`: a cached value
of 0 is falsy and is replaced by the generator). -/
def RSAAccumulator.initialize (a : RSAAccumulator) : Except String RSAAccumulator := do
  let w ← a.wal.initialize_cache
  Except.ok { a with
      wal := w
      current_sequence := w.cached_seq
      value := if w.cached_value ≠ 0 then w.cached_value else a.g }

/-- `add(element_hash)`: hash to a prime, raise the value to it mod `N`,
advance the sequence, append to the WAL (a failed durable write propagates
as an exception, with the in-memory fields already mutated), and return the
new value together with the membership proof. -/
def RSAAccumulator.add (a : RSAAccumulator) (element : PyBytes) (ts : List Char)
    (sync_ok : Bool) : RSAAccumulator × Except String (Nat × AccumulatorProof) :=
  let prime := hash_to_prime element
  let old_acc := a.value
  let v := a.value ^ prime % a.N
  let a1 := { a with value := v, current_sequence := a.current_sequence + 1 }
  match a1.wal.append "ADD".toList v element.hex8 ts sync_ok with
  | (w', Except.ok _) =>
    ({ a1 with wal := w' },
      .ok (v, { witness := (old_acc : Int), accumulator := (v : Int),
                element_hash := (prime : Int),
                sequence := (a1.current_sequence : Int) }))
  | (w', Except.error e) => ({ a1 with wal := w' }, .error e)

/-- The unique modular inverse in `[0, n)` that Python's `pow(a, -1, n)`
returns when `gcd(a, n) = 1`, found by bounded search. -/
def invMod (a n : Nat) : Nat :=
  (((List.range n).find? (fun x => a * x % n == 1)).getD 0)

/-- Python's three-argument `pow(b, e, n)` for a positive-or-zero modulus
`n : Nat` (the source only ever passes `self.N` or `self.phi`, both
non-negative): raises `ValueError` on a zero modulus and on a negative
exponent whose base is not invertible mod `n`; otherwise returns the
canonical representative in `[0, n)`. -/
def pyPow (b e : Int) (n : Nat) : Except String Int :=
  if n = 0 then .error "ValueError: modulus is zero"
  else if e < 0 then
    if Nat.gcd (b % (n : Int)).toNat n ≠ 1 then .error "ValueError: base is not invertible"
    else .ok ((invMod (b % (n : Int)).toNat n : Int) ^ e.natAbs % (n : Int))
  else .ok (b ^ e.toNat % (n : Int))

/-- The body of `verify` before its `try/except`: compute
`pow(proof.witness, proof.element_hash, self.N)` (which may raise) and
compare with `proof.accumulator`. -/
def RSAAccumulator.verifyRaw (a : RSAAccumulator) (proof : AccumulatorProof) :
    Except String Bool :=
  (pyPow proof.witness proof.element_hash a.N).map (fun c => c == proof.accumulator)

/-- `verify(proof)`: any exception from the arithmetic is caught and folded
into `False`. -/
def RSAAccumulator.verify (a : RSAAccumulator) (proof : AccumulatorProof) : Bool :=
  match a.verifyRaw proof with
  | Except.ok b => b
  | Except.error _ => false

/-- `batch_verify(proofs)`: `all(self.verify(p) for p in proofs)`. -/
def RSAAccumulator.batch_verify (a : RSAAccumulator) (proofs : List AccumulatorProof) :
    Bool :=
  proofs.all a.verify

/-- `remove(element_hash)`: invert the element's prime modulo `phi`
(`pow(prime, -1, self.phi)` raises before any mutation when the inverse does
not exist), exponentiate the value by the inverse, advance the sequence, and
log a REMOVE record. -/
def RSAAccumulator.remove (a : RSAAccumulator) (element : PyBytes) (ts : List Char)
    (sync_ok : Bool) : RSAAccumulator × Except String Nat :=
  let prime := hash_to_prime element
  match pyPow (prime : Int) (-1) a.phi with
  | Except.error e => (a, .error e)
  | Except.ok inv =>
    let v := a.value ^ inv.toNat % a.N
    let a1 := { a with value := v, current_sequence := a.current_sequence + 1 }
    match a1.wal.append "REMOVE".toList v element.hex8 ts sync_ok with
    | (w', Except.ok _) => ({ a1 with wal := w' }, .ok v)
    | (w', Except.error e) => ({ a1 with wal := w' }, .error e)

/-! ### Chain orchestrator (`src/accumulator/incremental_proof.py`) -/

/-- `IncrementalChainProof.__init__`: fresh accumulator over the given WAL
path, stored genesis hash, empty proof list. -/
def IncrementalChainProof.mk_fresh (N phi : Nat) (genesis_hash : PyBytes) :
    IncrementalChainProof :=
  { accumulator := RSAAccumulator.mk_fresh N phi, genesis := genesis_hash,
    proofs := [] }

/-- `IncrementalChainProof.initialize()`: recover the accumulator, then add
the genesis element directly through `Accumulator.add` (not `add_scar`, so
the proofs list is untouched) exactly when the recovered value equals the
generator. -/
def IncrementalChainProof.initialize (c : IncrementalChainProof) (ts : List Char)
    (sync_ok : Bool) : Except String IncrementalChainProof := do
  let a ← RSAAccumulator.initialize c.accumulator
  if a.value = a.g then
    match a.add c.genesis ts sync_ok with
    | (_, Except.error e) => Except.error e
    | (a', Except.ok _) => Except.ok { c with accumulator := a' }
  else
    Except.ok { c with accumulator := a }

/-- `add_scar(scar_hash)`: delegate to `Accumulator.add`, retain the proof,
return it. -/
def IncrementalChainProof.add_scar (c : IncrementalChainProof) (scar : PyBytes)
    (ts : List Char) (sync_ok : Bool) :
    IncrementalChainProof × Except String AccumulatorProof :=
  match c.accumulator.add scar ts sync_ok with
  | (a', Except.ok (_, proof)) =>
    ({ c with accumulator := a', proofs := c.proofs ++ [proof] }, .ok proof)
  | (a', Except.error e) => ({ c with accumulator := a' }, .error e)

/-- `verify_chain(latest_proof=None)`: with no argument, vacuously true on an
empty proofs list, else use the most recently retained proof; then verify it
and additionally require its accumulator field to equal the live value. -/
def IncrementalChainProof.verify_chain (c : IncrementalChainProof)
    (latest_proof : Option AccumulatorProof) : Bool :=
  match latest_proof with
  | none =>
    match c.proofs.getLast? with
    | none => true
    | some p => c.accumulator.verify p && (p.accumulator == (c.accumulator.value : Int))
  | some p => c.accumulator.verify p && (p.accumulator == (c.accumulator.value : Int))

/-- `get_state_proof()`: the most recently retained proof, if any. -/
def IncrementalChainProof.get_state_proof (c : IncrementalChainProof) :
    Option AccumulatorProof :=
  c.proofs.getLast?

/-- `accumulator_value` property. -/
def IncrementalChainProof.accumulator_value (c : IncrementalChainProof) : Nat :=
  c.accumulator.value

/-- Driver for the iterated-add scenarios of the spec (P3): perform
successive sync-successful `add` calls, collecting the returned proofs in
call order. -/
def addSeq (a : RSAAccumulator) :
    List (PyBytes × List Char) → RSAAccumulator × List AccumulatorProof
  | [] => (a, [])
  | (e, ts) :: rest =>
    match a.add e ts true with
    | (a1, Except.ok (_, proof)) =>
      let r := addSeq a1 rest
      (r.1, proof :: r.2)
    | (a1, Except.error _) => (a1, [])

/-! ### Lemmas -/

/-! ### Basic lemmas about the string primitives -/

theorem pySplit_ne_nil (sep : Char) (s : List Char) : pySplit sep s ≠ [] := by
  induction s with
  | nil => simp [pySplit]
  | cons c rest ih =>
    simp only [pySplit]
    split
    · simp
    · cases h : pySplit sep rest with
      | nil => simp
      | cons a t => simp

/-- Splitting a separator-free string returns the one-element list. -/
theorem pySplit_no_sep (sep : Char) (s : List Char) (h : sep ∉ s) :
    pySplit sep s = [s] := by
  induction s with
  | nil => rfl
  | cons c rest ih =>
    simp only [List.mem_cons, not_or] at h
    simp only [pySplit]
    rw [if_neg (fun hc => h.1 hc.symm), ih h.2]

/-- Splitting across the first separator occurrence peels off the prefix. -/
theorem pySplit_append (sep : Char) (a b : List Char) (h : sep ∉ a) :
    pySplit sep (a ++ sep :: b) = a :: pySplit sep b := by
  induction a with
  | nil => simp [pySplit]
  | cons c rest ih =>
    simp only [List.mem_cons, not_or] at h
    simp only [List.cons_append, pySplit]
    rw [if_neg (fun hc => h.1 hc.symm), List.append_eq, ih h.2]

theorem digitVal_digitChar (d : Nat) (h : d < 10) : digitVal (digitChar d) = d := by
  interval_cases d <;> decide

theorem digitChar_isDigit (d : Nat) (h : d < 10) : (digitChar d).isDigit = true := by
  interval_cases d <;> decide

theorem digitChar_ne_colon (d : Nat) (h : d < 10) : digitChar d ≠ ':' := by
  interval_cases d <;> decide

theorem digitChar_not_ws (d : Nat) (h : d < 10) : (digitChar d).isWhitespace = false := by
  interval_cases d <;> decide

theorem digitChar_ne_hash (d : Nat) (h : d < 10) : digitChar d ≠ '#' := by
  interval_cases d <;> decide

theorem natCharsAux_all_digits (f n : Nat) :
    ∀ c ∈ natCharsAux f n, c.isDigit = true := by
  induction f generalizing n with
  | zero => simp [natCharsAux]
  | succ f ih =>
    cases n with
    | zero => simp [natCharsAux]
    | succ m =>
      intro c hc
      simp only [natCharsAux, List.mem_cons] at hc
      rcases hc with rfl | hc
      · exact digitChar_isDigit _ (Nat.mod_lt _ (by omega))
      · exact ih _ c hc

theorem natToChars_all_digits (n : Nat) :
    ∀ c ∈ natToChars n, c.isDigit = true := by
  unfold natToChars
  split
  · simp
  · intro c hc
    rw [List.mem_reverse] at hc
    exact natCharsAux_all_digits _ _ c hc

theorem natToChars_ne_nil (n : Nat) : natToChars n ≠ [] := by
  unfold natToChars
  split
  · simp
  · intro h
    rw [List.reverse_eq_nil_iff] at h
    rename_i hn
    cases n with
    | zero => exact hn rfl
    | succ m => simp [natCharsAux] at h

/-- Folding the decimal digits back up recovers the number. -/
theorem charsToNat_reverse_natCharsAux (f n : Nat) (h : n ≤ f) :
    charsToNat (natCharsAux f n).reverse = n := by
  have key : ∀ f n, n ≤ f →
      (natCharsAux f n).foldr (fun c a => a * 10 + digitVal c) 0 = n := by
    intro f
    induction f with
    | zero => intro n h; interval_cases n; simp [natCharsAux]
    | succ f ih =>
      intro n h
      cases n with
      | zero => simp [natCharsAux]
      | succ m =>
        simp only [natCharsAux, List.foldr_cons]
        rw [ih ((m + 1) / 10) (by omega),
          digitVal_digitChar _ (Nat.mod_lt _ (by omega))]
        omega
  rw [charsToNat, List.foldl_reverse]
  exact key f n h

theorem dropWhile_eq_self_of_head (p : Char → Bool) :
    ∀ s : List Char, (∀ c, s.head? = some c → p c = false) → s.dropWhile p = s
  | [], _ => rfl
  | c :: rest, h => by simp [List.dropWhile_cons, h c rfl]

/-- `strip()` is the identity on a string whose two ends are not whitespace. -/
theorem pyStrip_eq_self (s : List Char)
    (h1 : ∀ c, s.head? = some c → c.isWhitespace = false)
    (h2 : ∀ c, s.getLast? = some c → c.isWhitespace = false) :
    pyStrip s = s := by
  unfold pyStrip
  rw [dropWhile_eq_self_of_head _ s h1,
    dropWhile_eq_self_of_head _ s.reverse
      (fun c hc => h2 c (by rwa [List.head?_reverse] at hc)),
    List.reverse_reverse]

theorem isPrime_iff (n : Nat) : isPrime n = true ↔ n.Prime := by
  rw [Nat.prime_def_lt]
  simp only [isPrime, Bool.and_eq_true, decide_eq_true_eq, List.all_eq_true,
    List.mem_range, Bool.or_eq_true, bne_iff_ne, ne_eq]
  constructor
  · rintro ⟨h2, hall⟩
    refine ⟨h2, fun m hm hdvd => ?_⟩
    rcases hall m hm with hlt | hmod
    · have : m ≠ 0 := by
        rintro rfl
        have := Nat.eq_zero_of_zero_dvd hdvd
        omega
      omega
    · exfalso
      rcases Nat.eq_zero_or_pos m with rfl | hm0
      · have := Nat.eq_zero_of_zero_dvd hdvd
        omega
      · exact hmod (Nat.dvd_iff_mod_eq_zero.1 hdvd)
  · rintro ⟨h2, hall⟩
    refine ⟨h2, fun d hd => ?_⟩
    by_cases hd2 : d < 2
    · exact Or.inl hd2
    · refine Or.inr (fun hmod => ?_)
      have := hall d hd (Nat.dvd_of_mod_eq_zero hmod)
      omega

theorem nextPrimeAux_least (fuel : Nat) :
    ∀ c, (∃ p, c ≤ p ∧ p < c + fuel ∧ isPrime p = true) →
      (c ≤ nextPrimeAux fuel c ∧ isPrime (nextPrimeAux fuel c) = true) ∧
        ∀ q, c ≤ q → isPrime q = true → nextPrimeAux fuel c ≤ q := by
  induction fuel with
  | zero =>
    rintro c ⟨p, h1, h2, _⟩
    omega
  | succ f ih =>
    intro c h
    by_cases hc : isPrime c = true
    · simp only [nextPrimeAux, if_pos hc]
      exact ⟨⟨le_refl c, hc⟩, fun q hq _ => hq⟩
    · have h' : ∃ p, c + 1 ≤ p ∧ p < (c + 1) + f ∧ isPrime p = true := by
        obtain ⟨p, h1, h2, h3⟩ := h
        have : p ≠ c := fun hp => hc (hp ▸ h3)
        exact ⟨p, by omega, by omega, h3⟩
      obtain ⟨⟨ha, hb⟩, hmin⟩ := ih (c + 1) h'
      simp only [nextPrimeAux, if_neg hc]
      refine ⟨⟨by omega, hb⟩, fun q hq hqp => ?_⟩
      have : q ≠ c := fun hp => hc (hp ▸ hqp)
      exact hmin q (by omega) hqp

/-- The fuel in `nextPrime` suffices: `nextPrime n` is the least prime ≥ n,
exactly what the source's unbounded probing loop returns. -/
theorem nextPrime_least (n : Nat) :
    (n ≤ nextPrime n ∧ (nextPrime n).Prime) ∧
      ∀ q, n ≤ q → q.Prime → nextPrime n ≤ q := by
  have hex : ∃ p, n ≤ p ∧ p < n + (n + 3) ∧ isPrime p = true := by
    rcases Nat.eq_zero_or_pos n with rfl | hn
    · exact ⟨2, by omega, by omega, by decide⟩
    · obtain ⟨p, hp, h1, h2⟩ := Nat.exists_prime_lt_and_le_two_mul n (by omega)
      exact ⟨p, by omega, by omega, (isPrime_iff p).2 hp⟩
  obtain ⟨⟨h1, h2⟩, h3⟩ := nextPrimeAux_least (n + 3) n hex
  exact ⟨⟨h1, (isPrime_iff _).1 h2⟩, fun q hq hqp => h3 q hq ((isPrime_iff q).2 hqp)⟩

/-! ### Supporting lemmas about characters and record lines -/

theorem isDigit_not_ws (c : Char) (h : c.isDigit = true) : c.isWhitespace = false := by
  cases hw : c.isWhitespace
  · rfl
  · exfalso
    simp only [Char.isWhitespace, Bool.or_eq_true, decide_eq_true_eq] at hw
    rcases hw with ((rfl | rfl) | rfl) | rfl <;> exact absurd h (by decide)

theorem isDigit_ne_colon (c : Char) (h : c.isDigit = true) : c ≠ ':' := by
  rintro rfl
  exact absurd h (by decide)

theorem isDigit_ne_hash (c : Char) (h : c.isDigit = true) : c ≠ '#' := by
  rintro rfl
  exact absurd h (by decide)

theorem natToChars_no_colon (n : Nat) : ':' ∉ natToChars n := fun hc =>
  isDigit_ne_colon ':' (natToChars_all_digits n ':' hc) rfl

/-- `int()` undoes the decimal rendering. -/
theorem pyInt_natToChars (n : Nat) : pyInt (natToChars n) = Except.ok n := by
  unfold pyInt
  rw [if_neg (by simpa [List.isEmpty_iff] using natToChars_ne_nil n),
    if_pos (by simpa [List.all_eq_true] using natToChars_all_digits n)]
  unfold natToChars
  split
  · rename_i h
    subst h
    rfl
  · exact congrArg Except.ok (charsToNat_reverse_natCharsAux n n (le_refl n))

theorem mkEntry_ne_nil (seq : Nat) (op : List Char) (v : Nat) (ts scar : List Char) :
    mkEntry seq op v ts scar ≠ [] := by
  unfold mkEntry
  intro h
  rcases List.append_eq_nil.1 h with ⟨h1, _⟩
  exact natToChars_ne_nil seq h1

theorem mkEntry_head_digit (seq : Nat) (op : List Char) (v : Nat) (ts scar : List Char) :
    ∀ c, (mkEntry seq op v ts scar).head? = some c → c.isDigit = true := by
  intro c hc
  unfold mkEntry at hc
  cases hd : natToChars seq with
  | nil => exact absurd hd (natToChars_ne_nil seq)
  | cons x xs =>
    rw [hd, List.cons_append, List.head?_cons, Option.some_inj] at hc
    have hx : x ∈ natToChars seq := by
      rw [hd]
      exact List.mem_cons_self x xs
    rw [← hc]
    exact natToChars_all_digits seq x hx

theorem mkEntry_not_hash (seq : Nat) (op : List Char) (v : Nat) (ts scar : List Char) :
    startsHash (mkEntry seq op v ts scar) = false := by
  cases hd : mkEntry seq op v ts scar with
  | nil => exact absurd hd (mkEntry_ne_nil seq op v ts scar)
  | cons x xs =>
    have hx : x.isDigit = true := by
      refine mkEntry_head_digit seq op v ts scar x ?_
      rw [hd]
      rfl
    simp [startsHash, isDigit_ne_hash x hx]

theorem getLast?_append_right (X Y : List Char) (hY : Y ≠ []) :
    (X ++ Y).getLast? = Y.getLast? := by
  rw [List.getLast?_append]
  exact Option.or_of_isSome (List.getLast?_isSome.2 hY)

theorem mkEntry_getLast_not_ws (seq : Nat) (op : List Char) (v : Nat) (ts scar : List Char)
    (hscar : ∀ c ∈ scar, c.isWhitespace = false) :
    ∀ c, (mkEntry seq op v ts scar).getLast? = some c → c.isWhitespace = false := by
  intro c hc
  unfold mkEntry at hc
  rw [getLast?_append_right _ _ (by simp), ← List.singleton_append,
    getLast?_append_right _ _ (by simp),
    getLast?_append_right _ _ (by simp), ← List.singleton_append,
    getLast?_append_right _ _ (by simp),
    getLast?_append_right _ _ (by simp), ← List.singleton_append,
    getLast?_append_right _ _ (by simp),
    getLast?_append_right _ _ (by simp)] at hc
  cases hs : scar with
  | nil =>
    subst hs
    simp only [List.getLast?_singleton, Option.some_inj] at hc
    rw [← hc]
    decide
  | cons y ys =>
    subst hs
    rw [List.getLast?_cons_cons] at hc
    exact hscar c (List.mem_of_getLast?_eq_some hc)

/-- `strip()` leaves a WAL record line unchanged. -/
theorem pyStrip_mkEntry (seq : Nat) (op : List Char) (v : Nat) (ts scar : List Char)
    (hscar : ∀ c ∈ scar, c.isWhitespace = false) :
    pyStrip (mkEntry seq op v ts scar) = mkEntry seq op v ts scar :=
  pyStrip_eq_self _
    (fun c hc => isDigit_not_ws c (mkEntry_head_digit seq op v ts scar c hc))
    (mkEntry_getLast_not_ws seq op v ts scar hscar)

/-- Splitting a WAL record line on `:` exposes the first three fields. -/
theorem pySplit_mkEntry (seq : Nat) (op : List Char) (v : Nat) (ts scar : List Char)
    (hop : ':' ∉ op) :
    pySplit ':' (mkEntry seq op v ts scar)
      = natToChars seq :: op :: natToChars v :: pySplit ':' (ts ++ ':' :: scar) := by
  unfold mkEntry
  rw [pySplit_append _ _ _ (natToChars_no_colon seq), pySplit_append _ _ _ hop,
    pySplit_append _ _ _ (natToChars_no_colon v)]

/-- Parsing a well-formed record line recovers its sequence and value (the
scar-id column depends on how many `:` the timestamp contains, which
`recover` callers discard). -/
theorem except_bind_ok {e a b : Type} (x : a) (f : a → Except e b) :
    (Except.ok x >>= f) = f x := rfl

theorem parseRecord_mkEntry (seq : Nat) (op : List Char) (v : Nat) (ts scar : List Char)
    (hop : ':' ∉ op) (hscar : ∀ c ∈ scar, c.isWhitespace = false) :
    ∃ x, parseRecord (mkEntry seq op v ts scar) = Except.ok (seq, v, x) := by
  unfold parseRecord
  rw [pyStrip_mkEntry seq op v ts scar hscar, pySplit_mkEntry seq op v ts scar hop]
  simp only [List.get?_cons_zero, List.get?_cons_succ, pyInt_natToChars, except_bind_ok]
  exact ⟨_, rfl⟩

/-- `recover` right after appending a record line returns that record's
sequence and value. -/
theorem recover_snoc (L : List (List Char)) (cs cv seq : Nat) (op : List Char)
    (v : Nat) (ts scar : List Char) (hop : ':' ∉ op)
    (hscar : ∀ c ∈ scar, c.isWhitespace = false) :
    ∃ x, AccumulatorWAL.recover
        ⟨L ++ [mkEntry seq op v ts scar], cs, cv⟩ = Except.ok (seq, v, x) := by
  unfold AccumulatorWAL.recover
  have hne : (mkEntry seq op v ts scar).isEmpty = false := by
    cases h : (mkEntry seq op v ts scar).isEmpty
    · rfl
    · exact absurd (List.isEmpty_iff.1 (by simp [h])) (mkEntry_ne_nil seq op v ts scar)
  have hdl : dataLines (L ++ [mkEntry seq op v ts scar])
      = dataLines L ++ [mkEntry seq op v ts scar] := by
    unfold dataLines
    rw [List.filter_append]
    congr 1
    simp [List.filter, hne, mkEntry_not_hash]
  rw [hdl, List.getLast?_concat]
  exact parseRecord_mkEntry seq op v ts scar hop hscar

/-- A sync-successful `add`, fully unfolded. -/
theorem add_true (a : RSAAccumulator) (e : PyBytes) (ts : List Char) :
    a.add e ts true =
      ({ a with
          value := a.value ^ hash_to_prime e % a.N
          current_sequence := a.current_sequence + 1
          wal := { lines := a.wal.lines ++
                     [mkEntry (a.wal.cached_seq + 1) ("ADD".toList)
                       (a.value ^ hash_to_prime e % a.N) ts e.hex8]
                   cached_seq := a.wal.cached_seq + 1
                   cached_value := a.value ^ hash_to_prime e % a.N } },
        Except.ok (a.value ^ hash_to_prime e % a.N,
          { witness := (a.value : Int)
            accumulator := ((a.value ^ hash_to_prime e % a.N : Nat) : Int)
            element_hash := ((hash_to_prime e : Nat) : Int)
            sequence := ((a.current_sequence + 1 : Nat) : Int) })) := rfl

/-- An `add` whose durable write fails, fully unfolded: the error propagates
while `value` and `current_sequence` are already advanced. -/
theorem add_false (a : RSAAccumulator) (e : PyBytes) (ts : List Char) :
    a.add e ts false =
      ({ a with
          value := a.value ^ hash_to_prime e % a.N
          current_sequence := a.current_sequence + 1
          wal := { a.wal with cached_seq := a.wal.cached_seq + 1 } },
        Except.error "IOError") := rfl

/-! ### Claims -/

/-- **C1** (membership law): for every byte string `e` and every accumulator
state whose modulus is positive (as the constructor guarantees for every
reachable state, `N` being a product of two large primes), the proof returned
by a sync-successful `add(e)` satisfies `verify(proof) = true` immediately
after `add` returns: the witness raised to the element-hash exponent mod `N`
equals the proof's accumulator field. -/
theorem C1_membership_law (a : RSAAccumulator) (e : PyBytes) (ts : List Char)
    (hN : 0 < a.N) :
    ((a.add e ts true).2.map fun r => (a.add e ts true).1.verify r.2)
      = Except.ok true := by
  rw [add_true]
  simp only [Except.map]
  unfold RSAAccumulator.verify RSAAccumulator.verifyRaw pyPow
  rw [if_neg (Nat.pos_iff_ne_zero.1 hN)]
  rw [if_neg (Int.not_lt.2 (Int.natCast_nonneg _))]
  simp only [Except.map, Int.toNat_natCast]
  congr 1
  rw [beq_iff_eq]
  push_cast
  rfl

theorem C1_membership_law_witness :
    0 < (RSAAccumulator.mk_fresh 15 8).N ∧
      ((((RSAAccumulator.mk_fresh 15 8).add ⟨5, "abcd".toList⟩ "T1".toList true).2.map
          fun r => ((RSAAccumulator.mk_fresh 15 8).add
            ⟨5, "abcd".toList⟩ "T1".toList true).1.verify r.2)
        = Except.ok true) :=
  ⟨by decide, C1_membership_law (RSAAccumulator.mk_fresh 15 8)
    ⟨5, "abcd".toList⟩ ("T1".toList) (by decide)⟩

/-- **C4** (verification totality on adversarial input): `verify` always
returns a Boolean — whenever the raw arithmetic (`pow`) raises (malformed
witness/exponent outside the valid range, e.g. a negative exponent with a
non-invertible witness), the `except` folds the error into `false` instead of
propagating it — and `batch_verify`, the conjunction of independent `verify`
calls, inherits the property: any proof whose arithmetic fails forces the
batch to `false` rather than raising. -/
theorem C4_verify_total (a : RSAAccumulator) (p : AccumulatorProof) (msg : String)
    (h : a.verifyRaw p = Except.error msg) :
    a.verify p = false ∧ ∀ l, p ∈ l → a.batch_verify l = false := by
  have hv : a.verify p = false := by
    unfold RSAAccumulator.verify
    rw [h]
  refine ⟨hv, fun l hl => ?_⟩
  unfold RSAAccumulator.batch_verify
  rw [List.all_eq_false]
  exact ⟨p, hl, by rw [hv]; decide⟩

theorem C4_verify_total_witness :
    (RSAAccumulator.mk_fresh 15 8).verify ⟨3, 1, -1, 0⟩ = false ∧
      (RSAAccumulator.mk_fresh 15 8).batch_verify [⟨3, 1, -1, 0⟩] = false :=
  ⟨(C4_verify_total (RSAAccumulator.mk_fresh 15 8) ⟨3, 1, -1, 0⟩
      "ValueError: base is not invertible" (by decide)).1,
    (C4_verify_total (RSAAccumulator.mk_fresh 15 8) ⟨3, 1, -1, 0⟩
      "ValueError: base is not invertible" (by decide)).2 [⟨3, 1, -1, 0⟩] (by simp)⟩

/-- **C5** (`verify_chain` semantics): with no argument and an empty proofs
list the chain is vacuously valid; otherwise — whether the proof is the most
recently retained one or explicitly supplied — the result is exactly
`Accumulator.verify(proof) AND proof.accumulator == live value`. -/
theorem C5_verify_chain_semantics (c : IncrementalChainProof) :
    (c.proofs = [] → c.verify_chain none = true) ∧
      (∀ p l, c.proofs = l ++ [p] →
        c.verify_chain none
          = (c.accumulator.verify p && p.accumulator == (c.accumulator.value : Int))) ∧
      (∀ p, c.verify_chain (some p)
        = (c.accumulator.verify p && p.accumulator == (c.accumulator.value : Int))) := by
  refine ⟨?_, ?_, ?_⟩
  · intro h
    unfold IncrementalChainProof.verify_chain
    rw [h]
    rfl
  · intro p l h
    unfold IncrementalChainProof.verify_chain
    rw [h, List.getLast?_concat]
  · intro p
    rfl

theorem C5_verify_chain_semantics_witness :
    (IncrementalChainProof.mk_fresh 15 8 ⟨3, []⟩).verify_chain none = true ∧
      (IncrementalChainProof.mk_fresh 15 8 ⟨3, []⟩).verify_chain (some ⟨1, 1, 1, 1⟩)
        = ((IncrementalChainProof.mk_fresh 15 8 ⟨3, []⟩).accumulator.verify ⟨1, 1, 1, 1⟩
            && (⟨1, 1, 1, 1⟩ : AccumulatorProof).accumulator
              == ((IncrementalChainProof.mk_fresh 15 8 ⟨3, []⟩).accumulator.value : Int)) :=
  ⟨(C5_verify_chain_semantics (IncrementalChainProof.mk_fresh 15 8 ⟨3, []⟩)).1 rfl,
    (C5_verify_chain_semantics (IncrementalChainProof.mk_fresh 15 8 ⟨3, []⟩)).2.2 ⟨1, 1, 1, 1⟩⟩

/-- Sequence bookkeeping of iterated adds, from an arbitrary start state. -/
theorem addSeq_sequences (es : List (PyBytes × List Char)) :
    ∀ a : RSAAccumulator,
      ((addSeq a es).2.map fun p => p.sequence)
        = (List.range es.length).map (fun i => ((a.current_sequence + i + 1 : Nat) : Int)) := by
  induction es with
  | nil => intro a; rfl
  | cons ets rest ih =>
    intro a
    rcases ets with ⟨e, ts⟩
    simp only [addSeq, add_true, List.map_cons, List.length_cons]
    rw [ih, List.range_succ_eq_map]
    simp only [List.map_cons, List.map_map, Function.comp]
    congr 1
    refine List.map_congr_left ?_
    intro i hi
    exact congrArg Nat.cast (by omega)

/-- **C8** (sequence monotonicity): starting from a fresh accumulator
(sequence 0), any series of N successful adds yields proofs whose sequence
fields are exactly 1, 2, …, N — no gaps, no repeats, strictly increasing. -/
theorem C8_sequence_monotonicity (N phi : Nat) (es : List (PyBytes × List Char)) :
    ((addSeq (RSAAccumulator.mk_fresh N phi) es).2.map fun p => p.sequence)
        = (List.range es.length).map (fun i => ((i + 1 : Nat) : Int)) ∧
      ((addSeq (RSAAccumulator.mk_fresh N phi) es).2.map fun p => p.sequence).Pairwise (· < ·) := by
  have h := addSeq_sequences es (RSAAccumulator.mk_fresh N phi)
  have hzero : (RSAAccumulator.mk_fresh N phi).current_sequence = 0 := rfl
  rw [hzero] at h
  simp only [Nat.zero_add] at h
  refine ⟨h, ?_⟩
  rw [h]
  refine List.Pairwise.map _ ?_ (List.pairwise_lt_range es.length)
  intro a b hab
  exact_mod_cast by omega

/-- **C3** counterexample: on a concrete state, a WAL-append failure during
`add` leaves the in-memory value and sequence CHANGED from their pre-`add`
values (the source advances both before attempting the durable write), so
the claimed atomicity fails. -/
theorem C3_append_failure_counterexample :
    ((RSAAccumulator.mk_fresh 15 8).add ⟨5, "ab".toList⟩ "T".toList false).2
        = Except.error "IOError" ∧
      ((RSAAccumulator.mk_fresh 15 8).add ⟨5, "ab".toList⟩ "T".toList false).1.value
        ≠ (RSAAccumulator.mk_fresh 15 8).value ∧
      ((RSAAccumulator.mk_fresh 15 8).add ⟨5, "ab".toList⟩ "T".toList false).1.current_sequence
        ≠ (RSAAccumulator.mk_fresh 15 8).current_sequence := by
  refine ⟨rfl, ?_, ?_⟩ <;> decide

/-- **C3** amended: when the WAL append performed during `add(e)` fails, the
error does propagate to the caller, but the accumulator's in-memory `value`
and `sequence` have already been advanced (to `value^prime mod N` and
`sequence + 1`); only the log file itself is left unchanged.  The failed
`add` therefore does have an observable effect on in-memory state. -/
theorem C3_append_failure_amended (a : RSAAccumulator) (e : PyBytes) (ts : List Char) :
    (a.add e ts false).2 = Except.error "IOError" ∧
      (a.add e ts false).1.value = a.value ^ hash_to_prime e % a.N ∧
      (a.add e ts false).1.current_sequence = a.current_sequence + 1 ∧
      (a.add e ts false).1.wal.lines = a.wal.lines := by
  rw [add_false]
  exact ⟨rfl, rfl, rfl, rfl⟩

/-- **C2** counterexample: a WAL whose last data line is a truncated fragment
(four fields instead of five — the timestamp/scar tail was lost mid-write).
`recover` does NOT fall back to the preceding well-formed record `(1, 7)`:
it parses and returns values from the corrupted line, `(2, 99)`.  A shorter
truncation (`"2:AD"`) makes `recover` raise an `IndexError` instead of
returning at all. -/
theorem C2_crash_tail_counterexample :
    AccumulatorWAL.recover
        ⟨[headerLine1, headerLine2, "1:ADD:7:2024:aa".toList, "2:ADD:99:2024".toList], 0, 0⟩
      = Except.ok (2, 99, none) ∧
      ((2 : Nat), (99 : Nat)) ≠ ((1 : Nat), (7 : Nat)) ∧
      AccumulatorWAL.recover
          ⟨[headerLine1, headerLine2, "1:ADD:7:2024:aa".toList, "2:AD".toList], 0, 0⟩
        = Except.error "IndexError" := by
  refine ⟨by decide, by decide, by decide⟩

/-- **C2** amended: `recover` examines only the LAST data line, with no
format validation and no fallback: whatever non-comment, non-empty fragment
ends the log, the result is exactly `parseRecord` of that fragment — the
corrupted line's own values when its first and third `:`-fields parse as
integers, and an exception (`IndexError`/`ValueError`) otherwise; the
preceding well-formed record is never consulted. -/
theorem C2_crash_tail_amended (L : List (List Char)) (frag : List Char)
    (h1 : frag ≠ []) (h2 : startsHash frag = false) (cs cv : Nat) :
    AccumulatorWAL.recover ⟨L ++ [frag], cs, cv⟩ = parseRecord frag := by
  unfold AccumulatorWAL.recover
  have hne : frag.isEmpty = false := by
    cases h : frag.isEmpty
    · rfl
    · exact absurd (List.isEmpty_iff.1 (by simp [h])) h1
  have hdl : dataLines (L ++ [frag]) = dataLines L ++ [frag] := by
    unfold dataLines
    rw [List.filter_append]
    congr 1
    simp [List.filter, hne, h2]
  rw [hdl, List.getLast?_concat]

theorem C2_crash_tail_amended_witness :
    AccumulatorWAL.recover
        ⟨[headerLine1, "1:ADD:7:2024:aa".toList] ++ ["2:ADD:99:2024".toList], 0, 0⟩
      = parseRecord ("2:ADD:99:2024".toList) :=
  C2_crash_tail_amended [headerLine1, "1:ADD:7:2024:aa".toList]
    ("2:ADD:99:2024".toList) (by decide) (by decide) 0 0

/-- **C9** counterexample: on a data-less WAL (headers only), `recover`
returns value 0 — the integer sentinel — not the generator 65537 as claimed.
-/
theorem C9_empty_recover_counterexample :
    AccumulatorWAL.recover freshWAL = Except.ok (0, 0, none) ∧ (0 : Nat) ≠ 65537 := by
  refine ⟨by decide, by decide⟩

/-- **C9** amended: on a WAL with no data records, `recover` returns
`(0, 0, None)` (value 0, not the generator); it is `RSAAccumulator.
initialize` — via `initialize_cache` seeding the caches with that 0 — that
then sets the in-memory value to the generator, because Python's
`self.wal.current_value or self.g` treats the cached 0 as falsy. -/
theorem C9_empty_recover_amended (a : RSAAccumulator) (h : dataLines a.wal.lines = []) :
    a.wal.recover = Except.ok (0, 0, none) ∧
      RSAAccumulator.initialize a = Except.ok { a with
        wal := { a.wal with cached_seq := 0, cached_value := 0 }
        current_sequence := 0
        value := a.g } := by
  have hr : a.wal.recover = Except.ok (0, 0, none) := by
    unfold AccumulatorWAL.recover
    rw [h]
    rfl
  refine ⟨hr, ?_⟩
  unfold RSAAccumulator.initialize AccumulatorWAL.initialize_cache
  rw [hr]
  rfl

theorem C9_empty_recover_amended_witness :
    (RSAAccumulator.mk_fresh 15 8).wal.recover = Except.ok (0, 0, none) ∧
      RSAAccumulator.initialize (RSAAccumulator.mk_fresh 15 8)
        = Except.ok { RSAAccumulator.mk_fresh 15 8 with
            wal := { (RSAAccumulator.mk_fresh 15 8).wal with
              cached_seq := 0
              cached_value := 0 }
            current_sequence := 0
            value := (RSAAccumulator.mk_fresh 15 8).g } :=
  C9_empty_recover_amended (RSAAccumulator.mk_fresh 15 8) (by decide)

/-- **C10** (implicit): `initialize()` on a fresh chain over an empty WAL
adds the genesis element through `Accumulator.add` directly, so no genesis
proof is retained: immediately afterwards the proofs list is empty,
`get_state_proof()` is `None`, and the no-argument `verify_chain()` is
vacuously true — even though one element (genesis) was added
(`current_sequence = 1`). -/
theorem C10_genesis_proof_not_retained (N phi : Nat) (gen : PyBytes) (ts : List Char) :
    ( IncrementalChainProof.initialize (IncrementalChainProof.mk_fresh N phi gen) ts true).map
        (fun c1 => (c1.proofs, c1.get_state_proof, c1.verify_chain none,
          c1.accumulator.current_sequence))
      = Except.ok ([], none, true, 1) := rfl

/-- **C6** (genesis idempotence): running the orchestrator's `initialize()`
twice in a row over the same WAL adds genesis exactly once
(`current_sequence = 1` after the first call) and the second call returns
the state of the first unchanged — sequence and value included.  The
hypotheses are the non-degeneracy conditions every real deployment satisfies
(the scar id has no whitespace; the post-genesis value `g^p mod N` is
neither 0 nor the generator itself, which holds for any RSA modulus). -/
theorem C6_genesis_idempotence (N phi : Nat) (gen : PyBytes) (ts ts2 : List Char)
    (hscar : ∀ ch ∈ gen.hex8, ch.isWhitespace = false)
    (h0 : 65537 ^ hash_to_prime gen % N ≠ 0)
    (hg : 65537 ^ hash_to_prime gen % N ≠ 65537) :
    ( IncrementalChainProof.initialize (IncrementalChainProof.mk_fresh N phi gen) ts true).bind
        (fun c1 => IncrementalChainProof.initialize c1 ts2 true)
      = IncrementalChainProof.initialize (IncrementalChainProof.mk_fresh N phi gen) ts true ∧
      ( IncrementalChainProof.initialize (IncrementalChainProof.mk_fresh N phi gen) ts true).map
        (fun c1 => c1.accumulator.current_sequence) = Except.ok 1 := by
  have hinit1 : IncrementalChainProof.initialize
        (IncrementalChainProof.mk_fresh N phi gen) ts true
      = Except.ok ⟨⟨N, phi, 65537, 65537 ^ hash_to_prime gen % N,
          ⟨[headerLine1, headerLine2]
              ++ [mkEntry 1 ("ADD".toList) (65537 ^ hash_to_prime gen % N) ts gen.hex8],
            1, 65537 ^ hash_to_prime gen % N⟩, 1⟩, gen, []⟩ := rfl
  obtain ⟨x, hrec⟩ := recover_snoc [headerLine1, headerLine2] 1
    (65537 ^ hash_to_prime gen % N) 1 ("ADD".toList) (65537 ^ hash_to_prime gen % N)
    ts gen.hex8 (by decide) hscar
  have hinit2 : IncrementalChainProof.initialize
        (⟨⟨N, phi, 65537, 65537 ^ hash_to_prime gen % N,
          ⟨[headerLine1, headerLine2]
              ++ [mkEntry 1 ("ADD".toList) (65537 ^ hash_to_prime gen % N) ts gen.hex8],
            1, 65537 ^ hash_to_prime gen % N⟩, 1⟩, gen, []⟩ : IncrementalChainProof) ts2 true
      = Except.ok ⟨⟨N, phi, 65537, 65537 ^ hash_to_prime gen % N,
          ⟨[headerLine1, headerLine2]
              ++ [mkEntry 1 ("ADD".toList) (65537 ^ hash_to_prime gen % N) ts gen.hex8],
            1, 65537 ^ hash_to_prime gen % N⟩, 1⟩, gen, []⟩ := by
    unfold IncrementalChainProof.initialize RSAAccumulator.initialize
      AccumulatorWAL.initialize_cache
    rw [hrec]
    simp only [except_bind_ok]
    rw [if_pos h0, if_neg hg]
  rw [hinit1]
  refine ⟨?_, rfl⟩
  show IncrementalChainProof.initialize _ ts2 true = _
  exact hinit2

theorem C6_genesis_idempotence_witness :
    ( IncrementalChainProof.initialize
          (IncrementalChainProof.mk_fresh 15 8 ⟨3, "ab".toList⟩) ("T".toList) true).bind
        (fun c1 => IncrementalChainProof.initialize c1 ("U".toList) true)
      = IncrementalChainProof.initialize
          (IncrementalChainProof.mk_fresh 15 8 ⟨3, "ab".toList⟩) ("T".toList) true ∧
      ( IncrementalChainProof.initialize
          (IncrementalChainProof.mk_fresh 15 8 ⟨3, "ab".toList⟩) ("T".toList) true).map
        (fun c1 => c1.accumulator.current_sequence) = Except.ok 1 :=
  C6_genesis_idempotence 15 8 ⟨3, "ab".toList⟩ ("T".toList) ("U".toList)
    (by decide) (by decide) (by decide)

/-! ### Number-theoretic lemmas for the add/remove round trip -/

theorem invMod_lt (a n : Nat) (hn : 0 < n) : invMod a n < n := by
  unfold invMod
  cases hf : (List.range n).find? (fun x => a * x % n == 1) with
  | none => simpa using hn
  | some y =>
    simp only [Option.getD_some]
    exact List.mem_range.1 (List.mem_of_find?_eq_some hf)

theorem invMod_inverse (a n : Nat) (hn : 2 ≤ n) (hg : Nat.gcd a n = 1) :
    a * invMod a n % n = 1 := by
  obtain ⟨m, hm⟩ := Nat.exists_mul_emod_eq_one_of_coprime hg (by omega)
  have hmm : a * (m % n) % n = 1 := by
    rw [Nat.mul_mod, Nat.mod_mod_of_dvd m (dvd_refl n), ← Nat.mul_mod]
    exact hm
  have hsome : ((List.range n).find? (fun x => a * x % n == 1)).isSome := by
    rw [List.find?_isSome]
    exact ⟨m % n, List.mem_range.2 (Nat.mod_lt _ (by omega)),
      by simpa [beq_iff_eq] using hmm⟩
  obtain ⟨y, hy⟩ := Option.isSome_iff_exists.1 hsome
  have hp : a * y % n = 1 := by
    have := List.find?_some hy
    simpa [beq_iff_eq] using this
  unfold invMod
  rw [hy, Option.getD_some]
  exact hp

theorem prime_pow_cong (p : Nat) (hp : p.Prime) (x k : Nat) (hk1 : 1 ≤ k)
    (hk : k ≡ 1 [MOD p - 1]) : x ^ k ≡ x [MOD p] := by
  by_cases hdvd : p ∣ x
  · have h1 : x ≡ 0 [MOD p] := Nat.modEq_zero_iff_dvd.2 hdvd
    have h2 : x ^ k ≡ 0 [MOD p] :=
      Nat.modEq_zero_iff_dvd.2 (dvd_pow hdvd (by omega))
    exact h2.trans h1.symm
  · have hcop : Nat.Coprime x p := Nat.coprime_comm.1 (hp.coprime_iff_not_dvd.2 hdvd)
    obtain ⟨t, ht⟩ := (Nat.modEq_iff_dvd' hk1).1 hk.symm
    have hk2 : k = (p - 1) * t + 1 := by omega
    have heuler : x ^ (p - 1) ≡ 1 [MOD p] := by
      have := Nat.ModEq.pow_totient hcop
      rwa [Nat.totient_prime hp] at this
    calc x ^ k = (x ^ (p - 1)) ^ t * x := by
          rw [hk2, pow_add, pow_mul, pow_one]
      _ ≡ 1 ^ t * x [MOD p] := (heuler.pow t).mul_right x
      _ = x := by rw [one_pow, one_mul]

/-- RSA correctness over a squarefree two-prime modulus: exponentiation by
any `k ≡ 1 mod φ(N)` is the identity on `[0, N)`. -/
theorem rsa_round_trip_mod (p q x k : Nat) (hp : p.Prime) (hq : q.Prime) (hne : p ≠ q)
    (hk1 : 1 ≤ k) (hk : k ≡ 1 [MOD (p - 1) * (q - 1)]) (hx : x < p * q) :
    x ^ k % (p * q) = x := by
  have hkp : k ≡ 1 [MOD p - 1] := Nat.ModEq.of_dvd (dvd_mul_right _ _) hk
  have hkq : k ≡ 1 [MOD q - 1] := Nat.ModEq.of_dvd (dvd_mul_left _ _) hk
  have hcong : x ^ k ≡ x [MOD p * q] :=
    (Nat.modEq_and_modEq_iff_modEq_mul ((Nat.coprime_primes hp hq).2 hne)).1
      ⟨prime_pow_cong p hp x k hk1 hkp, prime_pow_cong q hq x k hk1 hkq⟩
  calc x ^ k % (p * q) = x % (p * q) := hcong
    _ = x := Nat.mod_eq_of_lt hx

theorem phi_two_le (p q : Nat) (hp : p.Prime) (hq : q.Prime) (hne : p ≠ q) :
    2 ≤ (p - 1) * (q - 1) := by
  have hp2 := hp.two_le
  have hq2 := hq.two_le
  rcases (show 3 ≤ p ∨ 3 ≤ q by omega) with h3 | h3
  · calc 2 = 2 * 1 := rfl
      _ ≤ (p - 1) * (q - 1) := Nat.mul_le_mul (by omega) (by omega)
  · calc 2 = 1 * 2 := rfl
      _ ≤ (p - 1) * (q - 1) := Nat.mul_le_mul (by omega) (by omega)

/-- A sync-successful `remove`, fully unfolded, when the element's prime is
invertible modulo the totient. -/
theorem remove_ok (a : RSAAccumulator) (e : PyBytes) (ts : List Char)
    (hphi2 : 2 ≤ a.phi)
    (hgcd : Nat.gcd (hash_to_prime e % a.phi) a.phi = 1) :
    a.remove e ts true
      = ({ a with
            value := a.value ^ invMod (hash_to_prime e % a.phi) a.phi % a.N
            current_sequence := a.current_sequence + 1
            wal := { lines := a.wal.lines ++
                       [mkEntry (a.wal.cached_seq + 1) ("REMOVE".toList)
                         (a.value ^ invMod (hash_to_prime e % a.phi) a.phi % a.N) ts e.hex8]
                     cached_seq := a.wal.cached_seq + 1
                     cached_value := a.value ^ invMod (hash_to_prime e % a.phi) a.phi % a.N } },
          Except.ok (a.value ^ invMod (hash_to_prime e % a.phi) a.phi % a.N)) := by
  have hd_lt : invMod (hash_to_prime e % a.phi) a.phi < a.phi := invMod_lt _ _ (by omega)
  have hpy : pyPow ((hash_to_prime e : Nat) : Int) (-1) a.phi
      = Except.ok ((invMod (hash_to_prime e % a.phi) a.phi : Nat) : Int) := by
    unfold pyPow
    rw [if_neg (show ¬a.phi = 0 by omega), if_pos (show (-1 : Int) < 0 by decide)]
    have hmc : ((hash_to_prime e : Nat) : Int) % ((a.phi : Nat) : Int)
        = ((hash_to_prime e % a.phi : Nat) : Int) := by push_cast; rfl
    rw [hmc, Int.toNat_natCast, if_neg (not_not_intro hgcd)]
    congr 1
    rw [show ((-1 : Int)).natAbs = 1 from rfl, pow_one]
    exact Int.emod_eq_of_lt (Int.natCast_nonneg _) (by exact_mod_cast hd_lt)
  simp only [RSAAccumulator.remove, hpy, Int.toNat_natCast]
  rfl

/-- **C7** (add/remove round trip): on any state whose parameters are an
actual RSA setup — `N = p·q` for distinct primes with `phi = (p-1)(q-1)`, a
reduced current value, and the element's prime invertible mod `phi` (which
`pow(prime, -1, phi)` requires or raises) — `add(e)` followed by `remove(e)`
returns the accumulator value to its exact pre-`add` value, bit for bit. -/
theorem C7_add_remove_round_trip (p q : Nat) (hp : p.Prime) (hq : q.Prime) (hne : p ≠ q)
    (a : RSAAccumulator) (hN : a.N = p * q) (hphi : a.phi = (p - 1) * (q - 1))
    (hval : a.value < a.N) (e : PyBytes) (ts ts2 : List Char)
    (hcop : Nat.gcd (hash_to_prime e) a.phi = 1) :
    ((a.add e ts true).1.remove e ts2 true).2 = Except.ok a.value ∧
      ((a.add e ts true).1.remove e ts2 true).1.value = a.value := by
  have hphi2 : 2 ≤ a.phi := hphi ▸ phi_two_le p q hp hq hne
  have hgcd1 : Nat.gcd (hash_to_prime e % a.phi) a.phi = 1 := by
    rw [← Nat.gcd_rec, Nat.gcd_comm]
    exact hcop
  have hd_lt : invMod (hash_to_prime e % a.phi) a.phi < a.phi := invMod_lt _ _ (by omega)
  have hinv : (hash_to_prime e % a.phi) * invMod (hash_to_prime e % a.phi) a.phi % a.phi = 1 :=
    invMod_inverse _ _ hphi2 hgcd1
  have hprod : hash_to_prime e * invMod (hash_to_prime e % a.phi) a.phi % a.phi = 1 := by
    rw [Nat.mul_mod, Nat.mod_eq_of_lt hd_lt]
    exact hinv
  have hmod : hash_to_prime e * invMod (hash_to_prime e % a.phi) a.phi ≡ 1 [MOD a.phi] := by
    show _ % a.phi = 1 % a.phi
    rw [hprod, Nat.mod_eq_of_lt (show (1 : Nat) < a.phi by omega)]
  have hk1 : 1 ≤ hash_to_prime e * invMod (hash_to_prime e % a.phi) a.phi := by
    rcases Nat.eq_zero_or_pos
        (hash_to_prime e * invMod (hash_to_prime e % a.phi) a.phi) with h0 | h1
    · rw [h0, Nat.zero_mod] at hprod
      omega
    · exact h1
  have hkey : (a.value ^ hash_to_prime e % a.N)
        ^ invMod (hash_to_prime e % a.phi) a.phi % a.N = a.value := by
    rw [← Nat.pow_mod, ← pow_mul, hN]
    refine rsa_round_trip_mod p q a.value _ hp hq hne hk1 ?_ (hN ▸ hval)
    rw [← hphi]
    exact hmod
  have hrem := remove_ok (a.add e ts true).1 e ts2 hphi2 hgcd1
  constructor
  · rw [hrem]
    exact congrArg Except.ok hkey
  · rw [hrem]
    exact hkey

theorem C7_add_remove_round_trip_witness :
    (((⟨14, 6, 65537, 3, freshWAL, 0⟩ : RSAAccumulator).add
          ⟨4, "cd".toList⟩ "T".toList true).1.remove ⟨4, "cd".toList⟩ "U".toList true).2
        = Except.ok 3 ∧
      (((⟨14, 6, 65537, 3, freshWAL, 0⟩ : RSAAccumulator).add
          ⟨4, "cd".toList⟩ "T".toList true).1.remove ⟨4, "cd".toList⟩ "U".toList true).1.value
        = 3 :=
  C7_add_remove_round_trip 2 7 (by norm_num) (by norm_num) (by decide)
    ⟨14, 6, 65537, 3, freshWAL, 0⟩ (by decide) (by decide) (by decide)
    ⟨4, "cd".toList⟩ ("T".toList) ("U".toList) (by decide)

end SCM
